import Mathlib

/-!
Verification of the CIDR allocation gap computation in `netbox/ipam/views.py`:
`add_available_prefixes`, `add_available_ipaddresses`, and the aggregate
utilization percentage computation of `RIRListView.alter_queryset`.

Addresses are modeled as natural numbers; `netaddr` interval sets are modeled
as `Finset ℕ`; Python numeric values in the percentage computation are modeled
as exact rationals.
-/

namespace Netbox

/-- Bit width of an address family: IPv4 (`version = 4`) has 32 bits, IPv6 has 128. -/
def bitsOf (version : ℕ) : ℕ := if version = 4 then 32 else 128

/-- A CIDR network as handled by `netaddr.IPNetwork`: an address family,
the stored address value (host bits allowed) and a prefix length. -/
structure Network where
  version : ℕ
  addr : ℕ
  prefixlen : ℕ
deriving DecidableEq, Repr

/-- Number of addresses in the network (`IPNetwork.size`). -/
def Network.size (n : Network) : ℕ := 2 ^ (bitsOf n.version - n.prefixlen)

/-- `IPNetwork.first`: the network address, i.e. the stored value with host bits zeroed. -/
def Network.first (n : Network) : ℕ := n.addr - n.addr % n.size

/-- `IPNetwork.last`: the highest address in the network. -/
def Network.last (n : Network) : ℕ := n.first + n.size - 1

/-- A network value is valid when its stored address fits in the family's bit width. -/
def Network.Valid (n : Network) : Prop := n.addr < 2 ^ bitsOf n.version

instance : DecidablePred Network.Valid := fun n => by unfold Network.Valid; infer_instance

/-- The set of addresses covered by a network, as used by `netaddr.IPSet(p)`. -/
def netSet (n : Network) : Finset ℕ := Finset.Ico n.first (n.first + n.size)

/-- `netaddr.IPSet([p.prefix for p in prefix_list])`: union of the members' address sets. -/
def setUnion : List Network → Finset ℕ
  | [] => ∅
  | n :: rest => netSet n ∪ setUnion rest

/-- `IPSet.iter_cidrs` yields exactly the maximal CIDR blocks contained in the set,
in ascending order.  This computes those blocks inside the aligned block
`[base, base + 2 ^ fuel)` of prefix length `len` by binary splitting: a block
fully inside the set is emitted whole, a block disjoint from the set is dropped,
and any other block is split into its two halves. -/
def cidrDecompose (S : Finset ℕ) (v : ℕ) : (fuel base len : ℕ) → List Network
  | 0, base, len => if base ∈ S then [⟨v, base, len⟩] else []
  | fuel+1, base, len =>
    if Finset.Ico base (base + 2 ^ (fuel+1)) ⊆ S then [⟨v, base, len⟩]
    else if S ∩ Finset.Ico base (base + 2 ^ (fuel+1)) = ∅ then []
    else cidrDecompose S v fuel base (len+1) ++ cidrDecompose S v fuel (base + 2 ^ fuel) (len+1)

/-- The synthetic available networks built by `add_available_prefixes`
(lines 31–33 of `ipam/views.py`):
`netaddr.IPSet(parent) ^ netaddr.IPSet([p.prefix for p in prefix_list])`,
decomposed into CIDR blocks over the family's address space. -/
def availablePrefixes (parent : Network) (prefix_list : List Network) : List Network :=
  cidrDecompose ((netSet parent \ setUnion prefix_list) ∪ (setUnion prefix_list \ netSet parent))
    parent.version (bitsOf parent.version) 0 0

/-- `netaddr` ordering on networks (`IPNetwork.sort_key`): lexicographic on
(version, network address, prefix length, host bits). -/
def netLe (a b : Network) : Prop :=
  a.version < b.version ∨ (a.version = b.version ∧
    (a.first < b.first ∨ (a.first = b.first ∧
      (a.prefixlen < b.prefixlen ∨ (a.prefixlen = b.prefixlen ∧ a.addr ≤ b.addr)))))

instance : DecidableRel netLe := fun a b => by unfold netLe; infer_instance

/-- Boolean form of `netLe`, used as the comparator of the sort. -/
def netLeB (a b : Network) : Bool := decide (netLe a b)

/-- `add_available_prefixes(parent, prefix_list)` (lines 26–39 of `ipam/views.py`):
concatenate the child list with the synthetic available networks and sort by
the `netaddr` key (Python's `list.sort` is a stable merge sort). -/
def add_available_prefixes (parent : Network) (prefix_list : List Network) : List Network :=
  List.mergeSort (prefix_list ++ availablePrefixes parent prefix_list) netLeB

/-- An entry in the output of `add_available_ipaddresses`: either a real allocated
address record, or a synthetic `(skipped_count, first_skipped)` tuple. -/
inductive IPItem where
  | real (addr : ℕ)
  | gap (count : ℕ) (start : ℕ)
deriving DecidableEq, Repr

/-- The usable range of `add_available_ipaddresses` (lines 51–57 of `ipam/views.py`):
the network and broadcast addresses are excluded for non-pool IPv4 networks
with a mask shorter than /31; otherwise the full range is usable. -/
def firstLastUsable (pfx : Network) (is_pool : Bool) : ℕ × ℕ :=
  if pfx.version = 4 ∧ pfx.prefixlen < 31 ∧ is_pool = false
  then (pfx.first + 1, pfx.last - 1)
  else (pfx.first, pfx.last)

/-- The loop of lines 72–79 of `ipam/views.py`, after its first iteration:
for each further allocated address, emit a gap tuple if more than one address
was skipped since the previous one, then emit the address itself. -/
def walk : ℕ → List ℕ → List IPItem
  | _, [] => []
  | prev, ip :: rest =>
    (if prev + 1 < ip then [IPItem.gap (ip - prev - 1) (prev + 1)] else [])
      ++ IPItem.real ip :: walk ip rest

/-- `add_available_ipaddresses(prefix, ipaddress_list, is_pool)`
(lines 42–87 of `ipam/views.py`).  Addresses are numeric values; the displayed
`'{}/{}'` strings are represented by their starting address. -/
def add_available_ipaddresses (pfx : Network) (ipaddress_list : List ℕ) (is_pool : Bool) :
    List IPItem :=
  let fl := firstLastUsable pfx is_pool
  match ipaddress_list with
  | [] => [IPItem.gap (fl.2 - fl.1 + 1) fl.1]
  | a :: rest =>
    (if fl.1 < a then [IPItem.gap (a - fl.1) fl.1] else [])
      ++ IPItem.real a :: walk a rest
      ++ (if rest.getLastD a < fl.2
          then [IPItem.gap (fl.2 - rest.getLastD a) (rest.getLastD a + 1)] else [])

/-- `float('{:.2f}'.format(x))` idealized to exact arithmetic: rounding to the
exact two-decimal value.  The program stores the nearest IEEE binary64 double
instead; the exact-valued IEEE model is `round2f` below. -/
def round2 (q : ℚ) : ℚ := ((round (q * 100) : ℤ) : ℚ) / 100

/-- The percentage computation of `RIRListView.alter_queryset`
(lines 209–221 of `ipam/views.py`) idealized to exact rational arithmetic:
active, reserved and deprecated percentages are each computed from `total` and
rounded to two decimals (or set to `0` when `total` is falsy), and the available
percentage is `100` minus the other three.  Returns
`(active, reserved, deprecated, available)`.  On the `total = 0` path the
program performs only exact operations (`0` and `100 - 0 - 0 - 0`), so this
model agrees with it there; the IEEE binary64 model of the general path is
`percentagesF` below. -/
def percentages (total active reserved deprecated : ℚ) : ℚ × ℚ × ℚ × ℚ :=
  let a := if total ≠ 0 then round2 (active / total * 100) else 0
  let r := if total ≠ 0 then round2 (reserved / total * 100) else 0
  let d := if total ≠ 0 then round2 (deprecated / total * 100) else 0
  (a, r, d, 100 - a - r - d)

/-- Is an output entry a synthetic gap tuple? -/
def IPItem.isGap : IPItem → Bool
  | .gap _ _ => true
  | .real _ => false

/-- The starting address described by an output entry. -/
def IPItem.startOf : IPItem → ℕ
  | .real a => a
  | .gap _ s => s

/-- One past the last address described by an output entry. -/
def IPItem.endB : IPItem → ℕ
  | .real a => a + 1
  | .gap c s => s + c

/-- The address range described by an output entry. -/
def IPItem.rangeOf (i : IPItem) : Finset ℕ := Finset.Ico i.startOf i.endB

/-- The run of `c` consecutive addresses starting at `s`. -/
def consecRun (s : ℕ) : ℕ → List ℕ
  | 0 => []
  | c + 1 => s :: consecRun (s + 1) c

/-- The addresses described by one output entry, in ascending order. -/
def expandItem : IPItem → List ℕ
  | .real a => [a]
  | .gap c s => consecRun s c

/-- The addresses described by an output sequence, in order: this treats the
synthetic gap entries as if they were allocated records. -/
def expandItems : List IPItem → List ℕ
  | [] => []
  | i :: rest => expandItem i ++ expandItems rest

/-- Specification-side rendering of the Address Gap Finder walk, following the
claim's words: walk the list pairwise; between each pair of consecutive allocated
addresses emit a gap exactly when their difference exceeds 1, with count the
difference minus 1 and start the previous address plus 1, then emit the later
address unchanged. -/
def addrGapSpecBody (l : List ℕ) : List IPItem :=
  ((l.zip l.tail).map fun pc =>
    (if 1 < pc.2 - pc.1 then [IPItem.gap (pc.2 - pc.1 - 1) (pc.1 + 1)] else [])
      ++ [IPItem.real pc.2]).flatten

/-- Specification-side rendering of the whole Address Gap Finder output for a
non-empty allocated list, following the claim's words: a leading gap exactly when
the first allocated address exceeds the first usable address, the first address,
the pairwise walk, and a trailing gap exactly when the last allocated address is
below the last usable address. -/
def addrGapSpec (pfx : Network) (l : List ℕ) (is_pool : Bool) : List IPItem :=
  let fl := firstLastUsable pfx is_pool
  match l with
  | [] => []
  | a :: rest =>
    (if fl.1 < a then [IPItem.gap (a - fl.1) fl.1] else [])
      ++ IPItem.real a :: addrGapSpecBody (a :: rest)
      ++ (if rest.getLastD a < fl.2
          then [IPItem.gap (fl.2 - rest.getLastD a) (rest.getLastD a + 1)] else [])

/-!  ## Claims about the usable-range policy and the degenerate cases -/

/-- C4: in `add_available_ipaddresses` the usable range follows the pool policy:
a pool makes the first and last addresses usable; a non-pool IPv4 network with a
mask shorter than /31 excludes the network and broadcast addresses; an IPv4
network of prefix length 31 or 32 treats every address as usable regardless of
the pool flag. -/
theorem C4_usable_range_policy (pfx : Network) (is_pool : Bool) :
    (is_pool = true → firstLastUsable pfx is_pool = (pfx.first, pfx.last)) ∧
    (pfx.version = 4 → pfx.prefixlen < 31 → is_pool = false →
      firstLastUsable pfx is_pool = (pfx.first + 1, pfx.last - 1)) ∧
    (pfx.version = 4 → (pfx.prefixlen = 31 ∨ pfx.prefixlen = 32) →
      firstLastUsable pfx is_pool = (pfx.first, pfx.last)) := by
  unfold firstLastUsable
  refine ⟨fun hp => ?_, fun _ _ hp => ?_, fun _ h31 => ?_⟩
  · rw [if_neg]; rintro ⟨-, -, hfalse⟩; rw [hp] at hfalse; cases hfalse
  · rw [if_pos ⟨by assumption, by assumption, hp⟩]
  · rw [if_neg]; rintro ⟨-, hlt, -⟩; omega

/-- Witness for C4 at concrete networks: a /24, and a /31 where the pool flag is
irrelevant. -/
theorem C4_usable_range_policy_witness :
    firstLastUsable ⟨4, 0, 24⟩ true = (0, 255) ∧
    firstLastUsable ⟨4, 0, 24⟩ false = (1, 254) ∧
    firstLastUsable ⟨4, 6, 31⟩ false = (6, 7) := by
  refine ⟨?_, ?_, ?_⟩
  · rw [(C4_usable_range_policy ⟨4, 0, 24⟩ true).1 rfl]; rfl
  · rw [(C4_usable_range_policy ⟨4, 0, 24⟩ false).2.1 rfl (by norm_num) rfl]; rfl
  · rw [(C4_usable_range_policy ⟨4, 6, 31⟩ false).2.2 rfl (Or.inl rfl)]; rfl

/-- C10: for an IPv6 parent, `add_available_ipaddresses` never excludes the first
or last address: the usable range is the full range regardless of the pool flag
and of the prefix length, because the exclusion branch requires IPv4. -/
theorem C10_ipv6_full_range (pfx : Network) (is_pool : Bool) (h6 : pfx.version = 6) :
    firstLastUsable pfx is_pool = (pfx.first, pfx.last) := by
  unfold firstLastUsable
  rw [if_neg]; rintro ⟨h4, -, -⟩; rw [h6] at h4; cases h4

/-- Witness for C10 at a concrete IPv6 /126 network. -/
theorem C10_ipv6_full_range_witness : firstLastUsable ⟨6, 5, 126⟩ false = (4, 7) := by
  rw [C10_ipv6_full_range ⟨6, 5, 126⟩ false rfl]; rfl

/-- C6: on an empty allocated list, `add_available_ipaddresses` returns exactly one
gap entry covering the whole usable range, with count `last - first + 1`,
starting at the first usable address; the degenerate input is handled, not an error. -/
theorem C6_empty_allocation (pfx : Network) (is_pool : Bool) :
    add_available_ipaddresses pfx [] is_pool =
      [IPItem.gap ((firstLastUsable pfx is_pool).2 - (firstLastUsable pfx is_pool).1 + 1)
        (firstLastUsable pfx is_pool).1] := rfl

/-!  ## Claims about the aggregate utilization percentages -/

/-- C2 as stated is false: when `total` is zero the available percentage is
`100 − 0 − 0 − 0 = 100`, not `0`, because the available percentage is computed
unconditionally from the other three. -/
theorem C2_zero_total_counterexample :
    ¬ ((percentages 0 0 0 0).1 = 0 ∧ (percentages 0 0 0 0).2.1 = 0 ∧
       (percentages 0 0 0 0).2.2.1 = 0 ∧ (percentages 0 0 0 0).2.2.2 = 0) := by
  unfold percentages; norm_num

/-- C2 amended: when `total` is zero, the active, reserved and deprecated
percentages are reported as 0 (no division by zero is performed: the guarded
branch returns 0 directly) and the available percentage is therefore 100. -/
theorem C2_zero_total (total active reserved deprecated : ℚ) (h : total = 0) :
    percentages total active reserved deprecated = (0, 0, 0, 100) := by
  subst h; unfold percentages; norm_num

/-- Witness for the amended C2 at a concrete degenerate input. -/
theorem C2_zero_total_witness : percentages 0 7 5 3 = (0, 0, 0, 100) :=
  C2_zero_total 0 7 5 3 rfl

/-- In exact arithmetic the derivation of the available percentage makes the
four values sum to 100 identically.  This is the design intent behind lines
216–221; the program's IEEE double arithmetic rounds each subtraction, so the
reported values satisfy it only when those roundings are exact (see the C3
theorems below). -/
theorem percentages_sum_exact (total active reserved deprecated : ℚ) :
    (percentages total active reserved deprecated).1
      + (percentages total active reserved deprecated).2.1
      + (percentages total active reserved deprecated).2.2.1
      + (percentages total active reserved deprecated).2.2.2 = 100 := by
  unfold percentages; dsimp only; ring

/-!  ## IEEE binary64 model of the percentage computation

The program computes the percentages in Python floats (IEEE 754 binary64,
round to nearest, ties to even).  To keep every operation executable by the
kernel, an exact value is carried as an explicit integer fraction `n / d`
(`d > 0` by construction, not reduced), and rounding to a double is performed
on that fraction. -/

/-- An exact number as an unreduced fraction `n / d` of integers, `d > 0` by
construction. -/
structure Frac where
  n : ℤ
  d : ℕ
deriving Repr, DecidableEq

/-- The rational value of a fraction. -/
def Frac.toRat (x : Frac) : ℚ := x.n / x.d

/-- Negation of a fraction. -/
def Frac.neg (x : Frac) : Frac := ⟨-x.n, x.d⟩

/-- Exact difference of two fractions. -/
def Frac.sub (x y : Frac) : Frac := ⟨x.n * y.d - y.n * x.d, x.d * y.d⟩

/-- Exact product of two fractions. -/
def Frac.mul (x y : Frac) : Frac := ⟨x.n * y.n, x.d * y.d⟩

/-- Exact quotient of two fractions (keeping the denominator positive). -/
def Frac.div (x y : Frac) : Frac :=
  if 0 ≤ y.n then ⟨x.n * y.d, x.d * y.n.toNat⟩ else ⟨-(x.n * y.d), x.d * (-y.n).toNat⟩

/-- Exact product with `2 ^ k` for an integer `k`. -/
def Frac.mulPow2 (x : Frac) : ℤ → Frac
  | (k : ℕ) => ⟨x.n * 2 ^ k, x.d⟩
  | .negSucc k => ⟨x.n, x.d * 2 ^ (k + 1)⟩

/-- Fuel-bounded `⌊log₂ n⌋` (the fuel is an upper bound on the bit length). -/
def natLog2F : ℕ → ℕ → ℕ
  | 0, _ => 0
  | fuel + 1, n => if n ≤ 1 then 0 else natLog2F fuel (n / 2) + 1

/-- `⌊log₂ x⌋` of a positive fraction: the bit lengths of numerator and
denominator give two candidates, and a comparison with the corresponding power
of two picks the right one. -/
def qlog2 (x : Frac) : ℤ :=
  let la : ℤ := natLog2F 1000 x.n.toNat
  let lb : ℤ := natLog2F 1000 x.d
  let e := la - lb
  if 0 ≤ e then (if x.n < 2 ^ e.toNat * (x.d : ℤ) then e - 1 else e)
  else (if x.n * 2 ^ (-e).toNat < (x.d : ℤ) then e - 1 else e)

/-- Round a non-negative fraction to the nearest natural number, ties to even:
the fractional part is `(x.n % x.d) / x.d`, compared against one half. -/
def rnePos (x : Frac) : ℕ :=
  let f := x.n.toNat / x.d
  let twice := 2 * (x.n.toNat % x.d)
  if twice < x.d then f
  else if x.d < twice then f + 1
  else if f % 2 = 0 then f else f + 1

/-- Round a fraction to the nearest integer, ties to even. -/
def rne (x : Frac) : ℤ :=
  if x.n < 0 then -(rnePos x.neg : ℤ) else rnePos x

/-- Round a non-negative fraction to the nearest IEEE binary64 value (normal
range): scale into `[2^52, 2^53)`, round the 53-bit significand to nearest with
ties to even, and scale back. -/
def flPos (x : Frac) : Frac :=
  if x.n ≤ 0 then ⟨0, 1⟩
  else
    let e := qlog2 x - 52
    Frac.mulPow2 ⟨(rnePos (x.mulPow2 (-e)) : ℤ), 1⟩ e

/-- Round a fraction to the nearest IEEE binary64 value. -/
def fl (x : Frac) : Frac := if x.n < 0 then (flPos x.neg).neg else flPos x

/-- IEEE binary64 division: the correctly rounded exact quotient. -/
def fdiv (x y : Frac) : Frac := fl (x.div y)

/-- IEEE binary64 multiplication: the correctly rounded exact product. -/
def fmul (x y : Frac) : Frac := fl (x.mul y)

/-- IEEE binary64 subtraction: the correctly rounded exact difference. -/
def fsub (x y : Frac) : Frac := fl (x.sub y)

/-- `float('{:.2f}'.format(x))` on a double `x`: Python formats the exact value
of the double rounded to two decimals (ties to even) and re-parses it to the
nearest double. -/
def round2f (x : Frac) : Frac := fl ⟨rne (x.mul ⟨100, 1⟩), 100⟩

/-- The percentage computation of `RIRListView.alter_queryset`
(lines 209–221 of `ipam/views.py`) in IEEE binary64 arithmetic:
`float('{:.2f}'.format(x / total * 100))` for each of active, reserved and
deprecated (or `0` when `total` is falsy), and
`available = 100 - active - reserved - deprecated` evaluated left to right,
each operation rounding to the nearest double. -/
def percentagesF (total active reserved deprecated : Frac) : Frac × Frac × Frac × Frac :=
  let a := if total.n = 0 then ⟨0, 1⟩ else round2f (fmul (fdiv active total) ⟨100, 1⟩)
  let r := if total.n = 0 then ⟨0, 1⟩ else round2f (fmul (fdiv reserved total) ⟨100, 1⟩)
  let d := if total.n = 0 then ⟨0, 1⟩ else round2f (fmul (fdiv deprecated total) ⟨100, 1⟩)
  (a, r, d, fsub (fsub (fsub ⟨100, 1⟩ a) r) d)

set_option maxRecDepth 100000 in
theorem percentagesF_ce_eval : percentagesF ⟨10000, 1⟩ ⟨9014, 1⟩ ⟨30, 1⟩ ⟨24, 1⟩ =
    (⟨6343038600174633, 70368744177664⟩, ⟨5404319552844595, 18014398509481984⟩,
     ⟨8646911284551352, 36028797018963968⟩, ⟨5246693565886627, 562949953421312⟩) := by
  decide

/-- C3 as stated is false of the program's IEEE double arithmetic: for an
aggregate of total size 10000 with 9014 active, 30 reserved and 24 deprecated,
the program reports active 90.14, reserved 0.3, deprecated 0.24 and available
`100 - 90.14 - 0.3 - 0.24 = 9.319999999999999`, and the four reported
percentages sum to `99.99999999999999`, not exactly 100. -/
theorem C3_percentage_sum_counterexample :
    ¬ ((percentagesF ⟨10000, 1⟩ ⟨9014, 1⟩ ⟨30, 1⟩ ⟨24, 1⟩).1.toRat +
       (percentagesF ⟨10000, 1⟩ ⟨9014, 1⟩ ⟨30, 1⟩ ⟨24, 1⟩).2.1.toRat +
       (percentagesF ⟨10000, 1⟩ ⟨9014, 1⟩ ⟨30, 1⟩ ⟨24, 1⟩).2.2.1.toRat +
       (percentagesF ⟨10000, 1⟩ ⟨9014, 1⟩ ⟨30, 1⟩ ⟨24, 1⟩).2.2.2.toRat = 100) := by
  rw [percentagesF_ce_eval]
  unfold Frac.toRat
  norm_num

/-- C3 amended: each of active, reserved and deprecated is rounded to two
decimal places and available is derived as `100` minus the three rounded values
rather than computed independently; the four reported percentages sum to exactly
100 whenever the three floating-point subtractions of that derivation are exact,
but not in general, since IEEE rounding of the subtractions can make the
reported sum differ from 100. -/
theorem C3_percentage_sum_exact_subtractions (total active reserved deprecated : Frac)
    (h1 : (fsub ⟨100, 1⟩ (percentagesF total active reserved deprecated).1).toRat =
      100 - (percentagesF total active reserved deprecated).1.toRat)
    (h2 : (fsub (fsub ⟨100, 1⟩ (percentagesF total active reserved deprecated).1)
        (percentagesF total active reserved deprecated).2.1).toRat =
      (fsub ⟨100, 1⟩ (percentagesF total active reserved deprecated).1).toRat -
        (percentagesF total active reserved deprecated).2.1.toRat)
    (h3 : (fsub (fsub (fsub ⟨100, 1⟩ (percentagesF total active reserved deprecated).1)
          (percentagesF total active reserved deprecated).2.1)
        (percentagesF total active reserved deprecated).2.2.1).toRat =
      (fsub (fsub ⟨100, 1⟩ (percentagesF total active reserved deprecated).1)
          (percentagesF total active reserved deprecated).2.1).toRat -
        (percentagesF total active reserved deprecated).2.2.1.toRat) :
    (percentagesF total active reserved deprecated).1.toRat +
      (percentagesF total active reserved deprecated).2.1.toRat +
      (percentagesF total active reserved deprecated).2.2.1.toRat +
      (percentagesF total active reserved deprecated).2.2.2.toRat = 100 := by
  have h4 : (percentagesF total active reserved deprecated).2.2.2 =
      fsub (fsub (fsub ⟨100, 1⟩ (percentagesF total active reserved deprecated).1)
        (percentagesF total active reserved deprecated).2.1)
        (percentagesF total active reserved deprecated).2.2.1 := rfl
  rw [h4, h3, h2, h1]
  ring

set_option maxRecDepth 100000 in
theorem percentagesF_s5_eval : percentagesF ⟨1000, 1⟩ ⟨300, 1⟩ ⟨0, 1⟩ ⟨0, 1⟩ =
    (⟨8444249301319680, 281474976710656⟩, ⟨0, 1⟩, ⟨0, 1⟩,
     ⟨4925812092436480, 70368744177664⟩) := by
  decide

/-- Witness for the amended C3 at Scenario 5 of the spec (total 1000, active
300): the reported percentages are 30, 0, 0 and 70, every subtraction is exact,
and the sum is exactly 100. -/
theorem C3_percentage_sum_exact_subtractions_witness :
    (percentagesF ⟨1000, 1⟩ ⟨300, 1⟩ ⟨0, 1⟩ ⟨0, 1⟩).1.toRat +
      (percentagesF ⟨1000, 1⟩ ⟨300, 1⟩ ⟨0, 1⟩ ⟨0, 1⟩).2.1.toRat +
      (percentagesF ⟨1000, 1⟩ ⟨300, 1⟩ ⟨0, 1⟩ ⟨0, 1⟩).2.2.1.toRat +
      (percentagesF ⟨1000, 1⟩ ⟨300, 1⟩ ⟨0, 1⟩ ⟨0, 1⟩).2.2.2.toRat = 100 :=
  C3_percentage_sum_exact_subtractions ⟨1000, 1⟩ ⟨300, 1⟩ ⟨0, 1⟩ ⟨0, 1⟩
    (by
      rw [percentagesF_s5_eval]
      dsimp only
      simp only [show fsub ⟨100, 1⟩ ⟨8444249301319680, 281474976710656⟩ =
          ⟨4925812092436480, 70368744177664⟩ from by decide,
        show fsub ⟨4925812092436480, 70368744177664⟩ ⟨0, 1⟩ =
          ⟨4925812092436480, 70368744177664⟩ from by decide]
      unfold Frac.toRat
      norm_num)
    (by
      rw [percentagesF_s5_eval]
      dsimp only
      simp only [show fsub ⟨100, 1⟩ ⟨8444249301319680, 281474976710656⟩ =
          ⟨4925812092436480, 70368744177664⟩ from by decide,
        show fsub ⟨4925812092436480, 70368744177664⟩ ⟨0, 1⟩ =
          ⟨4925812092436480, 70368744177664⟩ from by decide]
      unfold Frac.toRat
      norm_num)
    (by
      rw [percentagesF_s5_eval]
      dsimp only
      simp only [show fsub ⟨100, 1⟩ ⟨8444249301319680, 281474976710656⟩ =
          ⟨4925812092436480, 70368744177664⟩ from by decide,
        show fsub ⟨4925812092436480, 70368744177664⟩ ⟨0, 1⟩ =
          ⟨4925812092436480, 70368744177664⟩ from by decide]
      unfold Frac.toRat
      norm_num)

/-!  ## C5: the emission rule of the address walk -/

theorem addrGapSpecBody_cons_cons (prev ip : ℕ) (rest : List ℕ) :
    addrGapSpecBody (prev :: ip :: rest) =
      ((if 1 < ip - prev then [IPItem.gap (ip - prev - 1) (prev + 1)] else [])
        ++ [IPItem.real ip]) ++ addrGapSpecBody (ip :: rest) := by
  simp [addrGapSpecBody]

theorem walk_eq_specBody : ∀ (rest : List ℕ) (prev : ℕ),
    walk prev rest = addrGapSpecBody (prev :: rest)
  | [], prev => by simp [walk, addrGapSpecBody]
  | ip :: rest, prev => by
    rw [addrGapSpecBody_cons_cons, walk, walk_eq_specBody rest ip]
    by_cases h : prev + 1 < ip
    · rw [if_pos h, if_pos (by omega : 1 < ip - prev)]; simp
    · rw [if_neg h, if_neg (by omega : ¬ 1 < ip - prev)]; simp

/-- C5: on a non-empty allocated list sorted ascending, the output of
`add_available_ipaddresses` is exactly what the specification's emission rule
describes: a leading gap exactly when the first allocated address exceeds the
first usable address; between consecutive allocated addresses a gap exactly when
their difference exceeds 1, with count the difference minus 1 starting at the
previous address plus 1; every allocated address (duplicates included) emitted
unchanged in position; and a trailing gap exactly when the last allocated address
is below the last usable address. -/
theorem C5_walk_emission (pfx : Network) (l : List ℕ) (is_pool : Bool)
    (hne : l ≠ []) (hsorted : List.Sorted (· ≤ ·) l) :
    add_available_ipaddresses pfx l is_pool = addrGapSpec pfx l is_pool := by
  match l with
  | [] => exact absurd rfl hne
  | a :: rest =>
    simp only [add_available_ipaddresses, addrGapSpec]
    rw [walk_eq_specBody]

/-- Witness for C5 at Scenario 4 of the spec: a /29 with one allocated address. -/
theorem C5_walk_emission_witness :
    add_available_ipaddresses ⟨4, 0, 29⟩ [2] false = addrGapSpec ⟨4, 0, 29⟩ [2] false :=
  C5_walk_emission ⟨4, 0, 29⟩ [2] false (by decide) (by decide)

/-!  ## C7: ordering and disjointness of the address finder output -/

/-- Adjacency relation between output entries: the earlier entry ends strictly
before the later one starts, and the later one describes a non-empty range. -/
def itemRel (x y : IPItem) : Prop := x.endB ≤ y.startOf ∧ y.startOf < y.endB

instance : IsTrans IPItem itemRel :=
  ⟨fun _ _ _ h1 h2 => ⟨le_trans h1.1 (le_trans (le_of_lt h1.2) h2.1), h2.2⟩⟩

theorem chain_walk_trailing (lastU : ℕ) :
    ∀ (rest : List ℕ) (prev : ℕ), List.Chain (· < ·) prev rest →
      List.Chain itemRel (IPItem.real prev)
        (walk prev rest ++ (if rest.getLastD prev < lastU
          then [IPItem.gap (lastU - rest.getLastD prev) (rest.getLastD prev + 1)] else []))
  | [], prev => by
    intro _
    simp only [walk, List.getLastD, List.nil_append]
    by_cases h : prev < lastU
    · rw [if_pos h]
      exact List.Chain.cons
        ⟨by simp [IPItem.endB, IPItem.startOf], by simp [IPItem.startOf, IPItem.endB]; omega⟩
        List.Chain.nil
    · rw [if_neg h]; exact List.Chain.nil
  | ip :: rest, prev => by
    intro hch
    rcases List.chain_cons.mp hch with ⟨hlt, hch'⟩
    have ih := chain_walk_trailing lastU rest ip hch'
    rw [walk, List.getLastD_cons]
    by_cases h : prev + 1 < ip
    · rw [if_pos h]
      simp only [List.cons_append, List.nil_append, List.append_assoc]
      refine List.Chain.cons ?_ (List.Chain.cons ?_ ih)
      · exact ⟨by simp [itemRel, IPItem.endB, IPItem.startOf],
          by simp [IPItem.startOf, IPItem.endB]; omega⟩
      · exact ⟨by simp [IPItem.endB, IPItem.startOf]; omega, by simp [IPItem.startOf, IPItem.endB]⟩
    · rw [if_neg h]
      simp only [List.cons_append, List.nil_append, List.append_assoc]
      exact List.Chain.cons
        ⟨by simp [IPItem.endB, IPItem.startOf]; omega, by simp [IPItem.startOf, IPItem.endB]⟩ ih

theorem wf_walk : ∀ (rest : List ℕ) (prev : ℕ), ∀ x ∈ walk prev rest, x.startOf < x.endB
  | [], _ => by simp [walk]
  | ip :: rest, prev => by
    intro x hx
    rw [walk] at hx
    rcases List.mem_append.mp hx with h | h
    · by_cases hc : prev + 1 < ip
      · rw [if_pos hc] at h
        rw [List.mem_singleton.mp h]
        simp [IPItem.startOf, IPItem.endB]; omega
      · rw [if_neg hc] at h; cases h
    · rcases List.mem_cons.mp h with h | h
      · rw [h]; simp [IPItem.startOf, IPItem.endB]
      · exact wf_walk rest ip x h

theorem wf_out (pfx : Network) (l : List ℕ) (is_pool : Bool) :
    ∀ x ∈ add_available_ipaddresses pfx l is_pool, x.startOf < x.endB := by
  match l with
  | [] =>
    intro x hx
    rw [List.mem_singleton.mp hx]
    simp [IPItem.startOf, IPItem.endB]
  | a :: rest =>
    intro x hx
    simp only [add_available_ipaddresses, List.append_assoc, List.cons_append] at hx
    rcases List.mem_append.mp hx with h | h
    · by_cases hc : (firstLastUsable pfx is_pool).1 < a
      · rw [if_pos hc] at h
        rw [List.mem_singleton.mp h]
        simp [IPItem.startOf, IPItem.endB]; omega
      · rw [if_neg hc] at h; cases h
    · rcases List.mem_cons.mp h with h | h
      · rw [h]; simp [IPItem.startOf, IPItem.endB]
      · rcases List.mem_append.mp h with h | h
        · exact wf_walk rest a x h
        · by_cases hc : rest.getLastD a < (firstLastUsable pfx is_pool).2
          · rw [if_pos hc] at h
            rw [List.mem_singleton.mp h]
            simp only [IPItem.startOf, IPItem.endB]
            omega
          · rw [if_neg hc] at h; cases h

theorem chain'_out (pfx : Network) (l : List ℕ) (is_pool : Bool)
    (h : List.Chain' (· < ·) l) :
    List.Chain' itemRel (add_available_ipaddresses pfx l is_pool) := by
  match l with
  | [] => exact List.chain'_singleton _
  | a :: rest =>
    have hcore := chain_walk_trailing (firstLastUsable pfx is_pool).2 rest a h
    simp only [add_available_ipaddresses, List.append_assoc, List.cons_append]
    by_cases hc : (firstLastUsable pfx is_pool).1 < a
    · rw [if_pos hc]
      simp only [List.cons_append, List.nil_append]
      exact List.Chain.cons
        ⟨by simp [IPItem.endB, IPItem.startOf]; omega, by simp [IPItem.startOf, IPItem.endB]⟩
        hcore
    · rw [if_neg hc]
      simpa only [List.nil_append] using hcore

/-- C7 as stated is false: a (non-strictly) ascending list with a duplicated
address yields two output entries with the same start address, which are neither
strictly ascending nor disjoint. -/
theorem C7_counterexample :
    List.Sorted (· ≤ ·) [1, 1] ∧
    ¬ (List.Pairwise (fun x y : IPItem => x.startOf < y.startOf)
          (add_available_ipaddresses ⟨4, 0, 30⟩ [1, 1] false) ∧
       List.Pairwise (fun x y : IPItem => Disjoint x.rangeOf y.rangeOf)
          (add_available_ipaddresses ⟨4, 0, 30⟩ [1, 1] false)) := by
  constructor
  · decide
  · decide

/-- C7 amended: for an allocated list that is strictly ascending (the sorted,
duplicate-free case), the output of `add_available_ipaddresses` is strictly
ascending by start address and no two entries describe overlapping ranges. -/
theorem C7_output_ordering (pfx : Network) (l : List ℕ) (is_pool : Bool)
    (hs : List.Sorted (· < ·) l) :
    List.Pairwise (fun x y => x.startOf < y.startOf)
        (add_available_ipaddresses pfx l is_pool) ∧
    List.Pairwise (fun x y => Disjoint x.rangeOf y.rangeOf)
        (add_available_ipaddresses pfx l is_pool) := by
  have hch : List.Chain' (· < ·) l := List.chain'_iff_pairwise.mpr hs
  have hpw : List.Pairwise itemRel (add_available_ipaddresses pfx l is_pool) :=
    List.chain'_iff_pairwise.mp (chain'_out pfx l is_pool hch)
  have hwf := wf_out pfx l is_pool
  constructor
  · exact hpw.imp_of_mem (fun hx _ hr => lt_of_lt_of_le (hwf _ hx) hr.1)
  · refine hpw.imp (fun hr => ?_)
    simp only [IPItem.rangeOf]
    rw [Finset.disjoint_left]
    intro z hz hz'
    rw [Finset.mem_Ico] at hz hz'
    have := hr.1
    omega

/-- Witness for the amended C7: Scenario 4 of the spec, a /29 with one allocated
address. -/
theorem C7_output_ordering_witness :
    List.Pairwise (fun x y => x.startOf < y.startOf)
        (add_available_ipaddresses ⟨4, 0, 29⟩ [2] false) ∧
    List.Pairwise (fun x y => Disjoint x.rangeOf y.rangeOf)
        (add_available_ipaddresses ⟨4, 0, 29⟩ [2] false) :=
  C7_output_ordering ⟨4, 0, 29⟩ [2] false (by decide)

/-!  ## C8, address half: re-running the finder on its expanded output -/

/-- The usable range is never empty. -/
theorem usable_le (pfx : Network) (is_pool : Bool) :
    (firstLastUsable pfx is_pool).1 ≤ (firstLastUsable pfx is_pool).2 := by
  unfold firstLastUsable
  split_ifs with h
  · rcases h with ⟨h4, hlen, -⟩
    have hsz : 4 ≤ pfx.size := by
      unfold Network.size
      calc (4 : ℕ) = 2 ^ 2 := by norm_num
      _ ≤ 2 ^ (bitsOf pfx.version - pfx.prefixlen) := by
          apply Nat.pow_le_pow_right (by norm_num)
          unfold bitsOf; rw [if_pos h4]; omega
    unfold Network.last
    dsimp only
    omega
  · unfold Network.last
    have hsz : 1 ≤ pfx.size := Nat.one_le_two_pow
    omega

theorem consecRun_ne_nil (s c : ℕ) (hc : 0 < c) : consecRun s c ≠ [] := by
  match c with
  | c + 1 => rw [consecRun]; exact List.cons_ne_nil _ _

theorem consecRun_getLastD : ∀ (c s d : ℕ),
    (consecRun s c).getLastD d = if c = 0 then d else s + c - 1
  | 0, _, _ => rfl
  | c + 1, s, d => by
    rw [consecRun, List.getLastD_cons, consecRun_getLastD c (s + 1) s,
      if_neg (Nat.succ_ne_zero c)]
    by_cases hc : c = 0
    · rw [if_pos hc]; omega
    · rw [if_neg hc]; omega

theorem chain_consecRun : ∀ (c s x : ℕ) (l' : List ℕ), s ≤ x + 1 →
    List.Chain (fun a b => b ≤ a + 1) (if c = 0 then x else s + c - 1) l' →
    List.Chain (fun a b => b ≤ a + 1) x (consecRun s c ++ l')
  | 0, s, x, l' => by intro _ h'; simpa [consecRun] using h'
  | c + 1, s, x, l' => by
    intro hs h'
    rw [consecRun]
    simp only [List.cons_append]
    refine List.Chain.cons hs ?_
    apply chain_consecRun c (s + 1) s l' (by omega)
    have he : (if c = 0 then s else s + 1 + c - 1) = (if c + 1 = 0 then x else s + (c + 1) - 1) := by
      rw [if_neg (Nat.succ_ne_zero c)]
      by_cases hc : c = 0
      · rw [if_pos hc]; omega
      · rw [if_neg hc]; omega
    rw [he]; exact h'

theorem expandItems_append : ∀ (l1 l2 : List IPItem),
    expandItems (l1 ++ l2) = expandItems l1 ++ expandItems l2
  | [], _ => rfl
  | i :: t, l2 => by
    rw [List.cons_append, expandItems, expandItems, expandItems_append t l2, List.append_assoc]

theorem getLastD_of_ne_nil {α : Type} {l : List α} (h : l ≠ []) (d d' : α) :
    l.getLastD d = l.getLastD d' := by
  match l with
  | [] => exact absurd rfl h
  | a :: t => rw [List.getLastD_cons, List.getLastD_cons]

theorem getLastD_append {α : Type} {l2 : List α} (h : l2 ≠ []) :
    ∀ (l1 : List α) (d : α), (l1 ++ l2).getLastD d = l2.getLastD d
  | [], d => rfl
  | x :: t, d => by
    rw [List.cons_append, List.getLastD_cons, getLastD_append h t x,
      getLastD_of_ne_nil h x d]

theorem chain_expand_walk : ∀ (rest : List ℕ) (prev : ℕ) (l' : List ℕ),
    List.Chain (fun a b => b ≤ a + 1) (rest.getLastD prev) l' →
    List.Chain (fun a b => b ≤ a + 1) prev (expandItems (walk prev rest) ++ l')
  | [], prev, l' => by intro h'; simpa [walk, expandItems] using h'
  | ip :: rest, prev, l' => by
    intro h'
    rw [List.getLastD_cons] at h'
    rw [walk, expandItems_append]
    have hmid : expandItems (IPItem.real ip :: walk ip rest) =
        ip :: expandItems (walk ip rest) := rfl
    rw [hmid, List.append_assoc, List.cons_append]
    by_cases hgap : prev + 1 < ip
    · rw [if_pos hgap]
      have hexp : expandItems [IPItem.gap (ip - prev - 1) (prev + 1)] =
          consecRun (prev + 1) (ip - prev - 1) := by
        simp [expandItems, expandItem]
      rw [hexp]
      apply chain_consecRun (ip - prev - 1) (prev + 1) prev _ (by omega)
      have ha : (if ip - prev - 1 = 0 then prev else prev + 1 + (ip - prev - 1) - 1) =
          ip - 1 := by split_ifs <;> omega
      rw [ha]
      exact List.Chain.cons (by omega) (chain_expand_walk rest ip l' h')
    · rw [if_neg hgap]
      rw [show expandItems ([] : List IPItem) = [] from rfl, List.nil_append]
      exact List.Chain.cons (by omega) (chain_expand_walk rest ip l' h')

theorem expand_walk_getLastD : ∀ (rest : List ℕ) (prev : ℕ),
    (expandItems (walk prev rest)).getLastD prev = rest.getLastD prev
  | [], _ => rfl
  | ip :: rest, prev => by
    rw [walk, expandItems_append]
    have hmid : expandItems (IPItem.real ip :: walk ip rest) =
        ip :: expandItems (walk ip rest) := rfl
    rw [hmid, getLastD_append (List.cons_ne_nil _ _), List.getLastD_cons,
      expand_walk_getLastD rest ip, List.getLastD_cons]

theorem walk_noGap : ∀ (rest : List ℕ) (prev : ℕ),
    List.Chain (fun a b => b ≤ a + 1) prev rest →
    (walk prev rest).filter IPItem.isGap = []
  | [], _ => by intro _; rfl
  | ip :: rest, prev => by
    intro h
    rcases List.chain_cons.mp h with ⟨h1, h2⟩
    rw [walk, if_neg (by omega : ¬ prev + 1 < ip)]
    simp only [List.nil_append, List.filter_cons]
    rw [show IPItem.isGap (IPItem.real ip) = false from rfl]
    simpa using walk_noGap rest ip h2

/-- Re-running the address finder on a covering, hole-free, usable-range-spanning
allocated list emits no gap entries. -/
theorem rerun_noGap (pfx : Network) (is_pool : Bool) (a : ℕ) (rest : List ℕ)
    (hhead : a ≤ (firstLastUsable pfx is_pool).1)
    (hch : List.Chain (fun x y => y ≤ x + 1) a rest)
    (hlast : (firstLastUsable pfx is_pool).2 ≤ rest.getLastD a) :
    (add_available_ipaddresses pfx (a :: rest) is_pool).filter IPItem.isGap = [] := by
  simp only [add_available_ipaddresses]
  rw [if_neg (by omega : ¬ (firstLastUsable pfx is_pool).1 < a),
    if_neg (by omega : ¬ rest.getLastD a < (firstLastUsable pfx is_pool).2)]
  simp only [List.nil_append, List.append_nil, List.filter_cons]
  rw [show IPItem.isGap (IPItem.real a) = false from rfl]
  simpa using walk_noGap rest a hch

/-- The expanded output of the address finder is non-empty, starts at or below
the first usable address, has no holes, and reaches the last usable address. -/
theorem expand_out_spec (pfx : Network) (l : List ℕ) (is_pool : Bool) :
    ∃ a rest, expandItems (add_available_ipaddresses pfx l is_pool) = a :: rest ∧
      a ≤ (firstLastUsable pfx is_pool).1 ∧
      List.Chain (fun x y => y ≤ x + 1) a rest ∧
      (firstLastUsable pfx is_pool).2 ≤ rest.getLastD a := by
  have hle := usable_le pfx is_pool
  match l with
  | [] =>
    refine ⟨(firstLastUsable pfx is_pool).1,
      consecRun ((firstLastUsable pfx is_pool).1 + 1)
        ((firstLastUsable pfx is_pool).2 - (firstLastUsable pfx is_pool).1), ?_, le_refl _, ?_, ?_⟩
    · show expandItems [IPItem.gap ((firstLastUsable pfx is_pool).2 -
          (firstLastUsable pfx is_pool).1 + 1) (firstLastUsable pfx is_pool).1] = _
      simp only [expandItems, expandItem, List.append_nil]
      rw [consecRun]
    · have := chain_consecRun ((firstLastUsable pfx is_pool).2 - (firstLastUsable pfx is_pool).1)
        ((firstLastUsable pfx is_pool).1 + 1) (firstLastUsable pfx is_pool).1 [] (by omega)
        (by split_ifs <;> exact List.Chain.nil)
      simpa using this
    · rw [consecRun_getLastD]
      split_ifs <;> omega
  | a0 :: rest0 =>
    have hT : List.Chain (fun x y => y ≤ x + 1) (rest0.getLastD a0)
        (expandItems (if rest0.getLastD a0 < (firstLastUsable pfx is_pool).2
          then [IPItem.gap ((firstLastUsable pfx is_pool).2 - rest0.getLastD a0)
            (rest0.getLastD a0 + 1)] else [])) := by
      by_cases ht : rest0.getLastD a0 < (firstLastUsable pfx is_pool).2
      · rw [if_pos ht]
        have hx : expandItems [IPItem.gap ((firstLastUsable pfx is_pool).2 - rest0.getLastD a0)
            (rest0.getLastD a0 + 1)] =
            consecRun (rest0.getLastD a0 + 1)
              ((firstLastUsable pfx is_pool).2 - rest0.getLastD a0) := by
          simp [expandItems, expandItem]
        rw [hx]
        have := chain_consecRun ((firstLastUsable pfx is_pool).2 - rest0.getLastD a0)
          (rest0.getLastD a0 + 1) (rest0.getLastD a0) [] (by omega)
          (by split_ifs <;> exact List.Chain.nil)
        simpa using this
      · rw [if_neg ht]; exact List.Chain.nil
    have hWT : List.Chain (fun x y => y ≤ x + 1) a0
        (expandItems (walk a0 rest0) ++ expandItems
          (if rest0.getLastD a0 < (firstLastUsable pfx is_pool).2
           then [IPItem.gap ((firstLastUsable pfx is_pool).2 - rest0.getLastD a0)
             (rest0.getLastD a0 + 1)] else [])) :=
      chain_expand_walk rest0 a0 _ hT
    have hlastWT : (firstLastUsable pfx is_pool).2 ≤
        (expandItems (walk a0 rest0) ++ expandItems
          (if rest0.getLastD a0 < (firstLastUsable pfx is_pool).2
           then [IPItem.gap ((firstLastUsable pfx is_pool).2 - rest0.getLastD a0)
             (rest0.getLastD a0 + 1)] else [])).getLastD a0 := by
      by_cases ht : rest0.getLastD a0 < (firstLastUsable pfx is_pool).2
      · rw [if_pos ht]
        have hx : expandItems [IPItem.gap ((firstLastUsable pfx is_pool).2 - rest0.getLastD a0)
            (rest0.getLastD a0 + 1)] =
            consecRun (rest0.getLastD a0 + 1)
              ((firstLastUsable pfx is_pool).2 - rest0.getLastD a0) := by
          simp [expandItems, expandItem]
        rw [hx, getLastD_append (consecRun_ne_nil _ _ (by omega)), consecRun_getLastD]
        split_ifs <;> omega
      · rw [if_neg ht]
        rw [show expandItems ([] : List IPItem) = [] from rfl, List.append_nil,
          expand_walk_getLastD]
        omega
    simp only [add_available_ipaddresses]
    by_cases hc : (firstLastUsable pfx is_pool).1 < a0
    · rw [if_pos hc]
      have hM : expandItems (([IPItem.gap (a0 - (firstLastUsable pfx is_pool).1)
            (firstLastUsable pfx is_pool).1] ++
            IPItem.real a0 :: walk a0 rest0) ++
            (if rest0.getLastD a0 < (firstLastUsable pfx is_pool).2
             then [IPItem.gap ((firstLastUsable pfx is_pool).2 - rest0.getLastD a0)
               (rest0.getLastD a0 + 1)] else [])) =
          (firstLastUsable pfx is_pool).1 ::
            (consecRun ((firstLastUsable pfx is_pool).1 + 1)
                (a0 - (firstLastUsable pfx is_pool).1 - 1) ++
              (a0 :: (expandItems (walk a0 rest0) ++ expandItems
                (if rest0.getLastD a0 < (firstLastUsable pfx is_pool).2
                 then [IPItem.gap ((firstLastUsable pfx is_pool).2 - rest0.getLastD a0)
                   (rest0.getLastD a0 + 1)] else [])))) := by
        rw [expandItems_append, expandItems_append]
        have h1 : expandItems [IPItem.gap (a0 - (firstLastUsable pfx is_pool).1)
            (firstLastUsable pfx is_pool).1] =
            consecRun (firstLastUsable pfx is_pool).1 (a0 - (firstLastUsable pfx is_pool).1) := by
          simp [expandItems, expandItem]
        have h2 : expandItems (IPItem.real a0 :: walk a0 rest0) =
            a0 :: expandItems (walk a0 rest0) := rfl
        rw [h1, h2]
        have h3 : a0 - (firstLastUsable pfx is_pool).1 =
            (a0 - (firstLastUsable pfx is_pool).1 - 1) + 1 := by omega
        rw [h3, consecRun]
        simp [List.append_assoc]
      rw [hM]
      refine ⟨(firstLastUsable pfx is_pool).1, _, rfl, le_refl _, ?_, ?_⟩
      · apply chain_consecRun _ _ _ _ (by omega)
        refine List.Chain.cons ?_ hWT
        split_ifs <;> omega
      · rw [getLastD_append (List.cons_ne_nil _ _), List.getLastD_cons]
        exact hlastWT
    · rw [if_neg hc]
      have hM : expandItems (([] ++ IPItem.real a0 :: walk a0 rest0) ++
            (if rest0.getLastD a0 < (firstLastUsable pfx is_pool).2
             then [IPItem.gap ((firstLastUsable pfx is_pool).2 - rest0.getLastD a0)
               (rest0.getLastD a0 + 1)] else [])) =
          a0 :: (expandItems (walk a0 rest0) ++ expandItems
            (if rest0.getLastD a0 < (firstLastUsable pfx is_pool).2
             then [IPItem.gap ((firstLastUsable pfx is_pool).2 - rest0.getLastD a0)
               (rest0.getLastD a0 + 1)] else [])) := by
        rw [List.nil_append, expandItems_append]
        rfl
      rw [hM]
      exact ⟨a0, _, rfl, by omega, hWT, hlastWT⟩

/-- C8: idempotence of both gap finders.  The address half: re-running
`add_available_ipaddresses` on the expansion of its own output (treating the
synthetic gap entries as allocated records) yields no gap entries. -/
theorem addr_idempotent (pfx : Network) (l : List ℕ) (is_pool : Bool) :
    (add_available_ipaddresses pfx
      (expandItems (add_available_ipaddresses pfx l is_pool)) is_pool).filter
        IPItem.isGap = [] := by
  obtain ⟨a, rest, hm, h1, h2, h3⟩ := expand_out_spec pfx l is_pool
  rw [hm]
  exact rerun_noGap pfx is_pool a rest h1 h2 h3

/-!  ## Set algebra lemmas for the prefix gap finder -/

theorem mem_setUnion : ∀ (l : List Network) (x : ℕ),
    x ∈ setUnion l ↔ ∃ n ∈ l, x ∈ netSet n
  | [], x => by simp [setUnion]
  | n :: t, x => by
    simp only [setUnion, Finset.mem_union, mem_setUnion t x, List.mem_cons]
    constructor
    · rintro (h | ⟨m, hm, hx⟩)
      · exact ⟨n, Or.inl rfl, h⟩
      · exact ⟨m, Or.inr hm, hx⟩
    · rintro ⟨m, hm | hm, hx⟩
      · rw [hm] at hx; exact Or.inl hx
      · exact Or.inr ⟨m, hm, hx⟩

theorem setUnion_append : ∀ (l1 l2 : List Network),
    setUnion (l1 ++ l2) = setUnion l1 ∪ setUnion l2
  | [], l2 => by simp [setUnion]
  | n :: t, l2 => by
    rw [List.cons_append, setUnion, setUnion, setUnion_append t l2, Finset.union_assoc]

theorem setUnion_perm {l1 l2 : List Network} (h : l1.Perm l2) :
    setUnion l1 = setUnion l2 := by
  ext x
  rw [mem_setUnion, mem_setUnion]
  constructor <;> rintro ⟨n, hn, hx⟩
  · exact ⟨n, h.mem_iff.mp hn, hx⟩
  · exact ⟨n, h.mem_iff.mpr hn, hx⟩

theorem setUnion_subset {l : List Network} {A : Finset ℕ}
    (h : ∀ c ∈ l, netSet c ⊆ A) : setUnion l ⊆ A := by
  intro x hx
  obtain ⟨n, hn, hxn⟩ := (mem_setUnion l x).mp hx
  exact h n hn hxn

/-- The set of an aligned block network is the corresponding interval. -/
theorem netSet_mk (v base len fuel : ℕ) (hal : base % 2 ^ fuel = 0)
    (hlen : len + fuel = bitsOf v) :
    netSet ⟨v, base, len⟩ = Finset.Ico base (base + 2 ^ fuel) := by
  unfold netSet Network.first Network.size
  dsimp only
  have h1 : bitsOf v - len = fuel := by omega
  rw [h1, hal, Nat.sub_zero]

/-- A valid network's range lies inside the family's address space. -/
theorem first_add_size_le (n : Network) (hv : n.Valid) :
    n.first + n.size ≤ 2 ^ bitsOf n.version := by
  unfold Network.first Network.Valid at *
  have hdvd : n.size ∣ 2 ^ bitsOf n.version := by
    unfold Network.size
    exact pow_dvd_pow 2 (Nat.sub_le _ _)
  have hpos : 0 < n.size := by unfold Network.size; positivity
  have h1 : n.addr - n.addr % n.size = n.size * (n.addr / n.size) := by
    have := Nat.div_add_mod n.addr n.size
    omega
  rw [h1]
  have h2 : n.addr / n.size < 2 ^ bitsOf n.version / n.size :=
    Nat.div_lt_div_of_lt_of_dvd hdvd hv
  have h3 : n.size * (n.addr / n.size + 1) ≤ n.size * (2 ^ bitsOf n.version / n.size) :=
    Nat.mul_le_mul_left _ (by omega)
  rw [Nat.mul_div_cancel' hdvd] at h3
  have h4 : n.size * (n.addr / n.size + 1) = n.size * (n.addr / n.size) + n.size := by ring
  omega

theorem netSet_bound (n : Network) (hv : n.Valid) :
    netSet n ⊆ Finset.Ico 0 (2 ^ bitsOf n.version) := by
  unfold netSet
  apply Finset.Ico_subset_Ico (Nat.zero_le _)
  exact first_add_size_le n hv

theorem cidrDecompose_version (S : Finset ℕ) (v : ℕ) :
    ∀ (fuel base len : ℕ), ∀ n ∈ cidrDecompose S v fuel base len, n.version = v
  | 0, base, len => by
    intro n hn
    rw [cidrDecompose] at hn
    split_ifs at hn
    · rw [List.mem_singleton.mp hn]
    · cases hn
  | fuel + 1, base, len => by
    intro n hn
    rw [cidrDecompose] at hn
    split_ifs at hn
    · rw [List.mem_singleton.mp hn]
    · cases hn
    · rcases List.mem_append.mp hn with h | h
      · exact cidrDecompose_version S v fuel base (len + 1) n h
      · exact cidrDecompose_version S v fuel (base + 2 ^ fuel) (len + 1) n h

theorem cidrDecompose_empty (v : ℕ) :
    ∀ (fuel base len : ℕ), cidrDecompose ∅ v fuel base len = []
  | 0, base, len => by
    rw [cidrDecompose, if_neg (Finset.not_mem_empty base)]
  | fuel + 1, base, len => by
    rw [cidrDecompose]
    rw [if_neg, if_pos (Finset.empty_inter _)]
    intro h
    exact Finset.not_mem_empty base
      (h (Finset.mem_Ico.mpr ⟨le_refl _, by have h2 := Nat.two_pow_pos (fuel + 1); omega⟩))

/-- Correctness of the CIDR decomposition inside an aligned block: every emitted
block lies inside the set and the enclosing block, the emitted blocks cover
exactly the set restricted to the enclosing block, and they are pairwise
disjoint. -/
theorem cidrDecompose_spec (S : Finset ℕ) (v : ℕ) :
    ∀ (fuel base len : ℕ), base % 2 ^ fuel = 0 → len + fuel = bitsOf v →
      (∀ n ∈ cidrDecompose S v fuel base len,
          netSet n ⊆ S ∧ netSet n ⊆ Finset.Ico base (base + 2 ^ fuel)) ∧
      setUnion (cidrDecompose S v fuel base len) = S ∩ Finset.Ico base (base + 2 ^ fuel) ∧
      (cidrDecompose S v fuel base len).Pairwise (fun a b => Disjoint (netSet a) (netSet b))
  | 0, base, len => by
    intro hal hlen
    have hone : Finset.Ico base (base + 2 ^ 0) = {base} := by
      rw [pow_zero, Nat.Ico_succ_singleton]
    rw [cidrDecompose]
    by_cases hb : base ∈ S
    · rw [if_pos hb]
      have hns : netSet ⟨v, base, len⟩ = Finset.Ico base (base + 2 ^ 0) :=
        netSet_mk v base len 0 hal hlen

      refine ⟨?_, ?_, List.pairwise_singleton _ _⟩
      · intro n hn
        rw [List.mem_singleton.mp hn, hns, hone]
        exact ⟨Finset.singleton_subset_iff.mpr hb, subset_refl _⟩
      · simp only [setUnion, Finset.union_empty]
        rw [hns, hone]
        exact (Finset.inter_singleton_of_mem hb).symm
    · rw [if_neg hb]
      refine ⟨(by intro n hn; cases hn), ?_, List.Pairwise.nil⟩
      simp only [setUnion]
      rw [hone, Finset.inter_singleton_of_not_mem hb]
  | fuel + 1, base, len => by
    intro hal hlen
    have hp2 : (2 : ℕ) ^ (fuel + 1) = 2 ^ fuel + 2 ^ fuel := by rw [pow_succ]; omega
    rw [cidrDecompose]
    by_cases h1 : Finset.Ico base (base + 2 ^ (fuel + 1)) ⊆ S
    · rw [if_pos h1]
      have hns : netSet ⟨v, base, len⟩ = Finset.Ico base (base + 2 ^ (fuel + 1)) :=
        netSet_mk v base len (fuel + 1) hal hlen
      refine ⟨?_, ?_, List.pairwise_singleton _ _⟩
      · intro n hn
        rw [List.mem_singleton.mp hn, hns]
        exact ⟨h1, subset_refl _⟩
      · simp only [setUnion, Finset.union_empty]
        rw [hns]
        exact (Finset.inter_eq_right.mpr h1).symm
    · rw [if_neg h1]
      by_cases h2 : S ∩ Finset.Ico base (base + 2 ^ (fuel + 1)) = ∅
      · rw [if_pos h2]
        exact ⟨(by intro n hn; cases hn), (by simp only [setUnion]; rw [h2]), List.Pairwise.nil⟩
      · rw [if_neg h2]
        have hd : 2 ^ (fuel + 1) ∣ base := Nat.dvd_of_mod_eq_zero hal
        have hal1 : base % 2 ^ fuel = 0 :=
          Nat.mod_eq_zero_of_dvd (dvd_trans (pow_dvd_pow 2 (Nat.le_succ fuel)) hd)
        have hal2 : (base + 2 ^ fuel) % 2 ^ fuel = 0 := by
          rw [Nat.add_mod, hal1, Nat.mod_self]
          simp
        have hlen1 : (len + 1) + fuel = bitsOf v := by omega
        obtain ⟨mem1, un1, pw1⟩ := cidrDecompose_spec S v fuel base (len + 1) hal1 hlen1
        obtain ⟨mem2, un2, pw2⟩ :=
          cidrDecompose_spec S v fuel (base + 2 ^ fuel) (len + 1) hal2 hlen1
        have hsplit : Finset.Ico base (base + 2 ^ (fuel + 1)) =
            Finset.Ico base (base + 2 ^ fuel) ∪
              Finset.Ico (base + 2 ^ fuel) (base + 2 ^ fuel + 2 ^ fuel) := by
          rw [Finset.Ico_union_Ico_eq_Ico (by omega) (by omega)]
          congr 1
          omega
        refine ⟨?_, ?_, ?_⟩
        · intro n hn
          rcases List.mem_append.mp hn with h | h
          · refine ⟨(mem1 n h).1, subset_trans (mem1 n h).2 ?_⟩
            rw [hsplit]; exact Finset.subset_union_left
          · refine ⟨(mem2 n h).1, subset_trans (mem2 n h).2 ?_⟩
            rw [hsplit]; exact Finset.subset_union_right
        · rw [setUnion_append, un1, un2, ← Finset.inter_union_distrib_left, ← hsplit]
        · rw [List.pairwise_append]
          refine ⟨pw1, pw2, ?_⟩
          intro a ha b hb
          exact Finset.disjoint_of_subset_left (mem1 a ha).2
            (Finset.disjoint_of_subset_right (mem2 b hb).2
              (Finset.Ico_disjoint_Ico_consecutive _ _ _))

/-- Facts about the synthetic available networks when every child is contained
in the parent: they cover exactly the parent's range minus the children, are
pairwise disjoint, and each lies inside the parent minus the children. -/
theorem availablePrefixes_spec (parent : Network) (children : List Network)
    (hv : parent.Valid) (hc : ∀ c ∈ children, netSet c ⊆ netSet parent) :
    setUnion (availablePrefixes parent children) = netSet parent \ setUnion children ∧
    (availablePrefixes parent children).Pairwise (fun a b => Disjoint (netSet a) (netSet b)) ∧
    ∀ g ∈ availablePrefixes parent children,
      netSet g ⊆ netSet parent \ setUnion children := by
  have hCU : setUnion children ⊆ netSet parent := setUnion_subset hc
  have hSP : (netSet parent \ setUnion children) ∪ (setUnion children \ netSet parent) =
      netSet parent \ setUnion children := by
    rw [Finset.sdiff_eq_empty_iff_subset.mpr hCU, Finset.union_empty]
  have hsub : netSet parent \ setUnion children ⊆
      Finset.Ico 0 (0 + 2 ^ bitsOf parent.version) := by
    rw [Nat.zero_add]
    exact subset_trans Finset.sdiff_subset (netSet_bound parent hv)
  obtain ⟨hmem, hun, hpw⟩ := cidrDecompose_spec
    ((netSet parent \ setUnion children) ∪ (setUnion children \ netSet parent))
    parent.version (bitsOf parent.version) 0 0 (Nat.zero_mod _) (Nat.zero_add _)
  rw [hSP] at hmem hun hpw
  unfold availablePrefixes
  rw [hSP]
  refine ⟨?_, hpw, fun g hg => (hmem g hg).1⟩
  rw [hun]
  exact Finset.inter_eq_left.mpr hsub

/-- C1: for a parent network and children contained in it, the output of
`add_available_prefixes` consists (as a multiset) of the original children plus
the synthetic available networks; the union of the available networks and the
children is exactly the parent's address range; the available networks are
pairwise disjoint; and no available network overlaps any child. -/
theorem C1_prefix_gap_coverage (parent : Network) (children : List Network)
    (hv : parent.Valid) (hc : ∀ c ∈ children, netSet c ⊆ netSet parent) :
    (add_available_prefixes parent children).Perm
        (children ++ availablePrefixes parent children) ∧
    setUnion (availablePrefixes parent children) ∪ setUnion children = netSet parent ∧
    (availablePrefixes parent children).Pairwise
        (fun a b => Disjoint (netSet a) (netSet b)) ∧
    ∀ g ∈ availablePrefixes parent children, ∀ c ∈ children,
      Disjoint (netSet g) (netSet c) := by
  obtain ⟨hu, hpw, hmem⟩ := availablePrefixes_spec parent children hv hc
  refine ⟨List.mergeSort_perm _ _, ?_, hpw, ?_⟩
  · rw [hu, Finset.sdiff_union_self_eq_union]
    exact Finset.union_eq_left.mpr (setUnion_subset hc)
  · intro g hg c hcmem
    rw [Finset.disjoint_left]
    intro x hx hxc
    have h1 := hmem g hg hx
    rw [Finset.mem_sdiff] at h1
    exact h1.2 ((mem_setUnion children x).mpr ⟨c, hcmem, hxc⟩)

/-- Witness for C1: parent `10.0.0.0/30`-style block at address 0 with one /31 child. -/
theorem C1_prefix_gap_coverage_witness :
    (add_available_prefixes ⟨4, 0, 30⟩ [⟨4, 0, 31⟩]).Perm
        ([⟨4, 0, 31⟩] ++ availablePrefixes ⟨4, 0, 30⟩ [⟨4, 0, 31⟩]) ∧
    setUnion (availablePrefixes ⟨4, 0, 30⟩ [⟨4, 0, 31⟩]) ∪ setUnion [⟨4, 0, 31⟩] =
      netSet ⟨4, 0, 30⟩ ∧
    (availablePrefixes ⟨4, 0, 30⟩ [⟨4, 0, 31⟩]).Pairwise
        (fun a b => Disjoint (netSet a) (netSet b)) ∧
    ∀ g ∈ availablePrefixes ⟨4, 0, 30⟩ [⟨4, 0, 31⟩], ∀ c ∈ [(⟨4, 0, 31⟩ : Network)],
      Disjoint (netSet g) (netSet c) :=
  C1_prefix_gap_coverage ⟨4, 0, 30⟩ [⟨4, 0, 31⟩] (by decide) (by decide)

/-!  ## C9: canonical ordering and order independence of the prefix gap finder -/

theorem netLe_total (a b : Network) : netLe a b ∨ netLe b a := by
  unfold netLe; omega

theorem netLe_trans (a b c : Network) (h1 : netLe a b) (h2 : netLe b c) : netLe a c := by
  unfold netLe at *; omega

theorem netLe_antisymm (a b : Network) (h1 : netLe a b) (h2 : netLe b a) : a = b := by
  have h : a.version = b.version ∧ a.prefixlen = b.prefixlen ∧ a.addr = b.addr := by
    unfold netLe at h1 h2; omega
  obtain ⟨e1, e2, e3⟩ := h
  cases a; cases b
  dsimp only at e1 e2 e3
  subst e1; subst e2; subst e3
  rfl

instance : IsAntisymm Network (fun a b => netLeB a b = true) :=
  ⟨fun a b h1 h2 => netLe_antisymm a b (of_decide_eq_true h1) (of_decide_eq_true h2)⟩

theorem netLeB_trans : ∀ (a b c : Network), netLeB a b → netLeB b c → netLeB a c := by
  intro a b c h1 h2
  simp only [netLeB, decide_eq_true_eq] at *
  exact netLe_trans a b c h1 h2

theorem netLeB_total : ∀ (a b : Network), netLeB a b || netLeB b a := by
  intro a b
  simp only [netLeB, Bool.or_eq_true, decide_eq_true_eq]
  exact netLe_total a b

/-- C9: the output of `add_available_prefixes` is sorted by numeric start address
ascending with ties broken by prefix length ascending (for children of the
parent's family); the output is identical no matter in which order the children
are supplied; and decomposing an empty available set yields zero gap blocks. -/
theorem C9_canonical_form (parent : Network) (c1 c2 : List Network)
    (hperm : c1.Perm c2) (hv : ∀ c ∈ c1, c.version = parent.version) :
    List.Pairwise
        (fun a b => a.first < b.first ∨ (a.first = b.first ∧ a.prefixlen ≤ b.prefixlen))
        (add_available_prefixes parent c1) ∧
    add_available_prefixes parent c1 = add_available_prefixes parent c2 ∧
    ∀ fuel base len, cidrDecompose ∅ parent.version fuel base len = [] := by
  have hs1 : (add_available_prefixes parent c1).Pairwise (fun a b => netLeB a b = true) :=
    List.sorted_mergeSort netLeB_trans netLeB_total _
  refine ⟨?_, ?_, cidrDecompose_empty parent.version⟩
  · have hvall : ∀ n ∈ add_available_prefixes parent c1, n.version = parent.version := by
      intro n hn
      unfold add_available_prefixes at hn
      rw [List.mem_mergeSort] at hn
      rcases List.mem_append.mp hn with h | h
      · exact hv n h
      · exact cidrDecompose_version _ parent.version _ _ _ n h
    refine hs1.imp_of_mem ?_
    intro a b ha hb hr
    have hva := hvall a ha
    have hvb := hvall b hb
    have hab : netLe a b := of_decide_eq_true hr
    unfold netLe at hab
    rcases hab with h | ⟨-, h⟩
    · omega
    · rcases h with h | ⟨hf, h⟩
      · exact Or.inl h
      · rcases h with h | ⟨hp, -⟩
        · exact Or.inr ⟨hf, le_of_lt h⟩
        · exact Or.inr ⟨hf, le_of_eq hp⟩
  · have hA : availablePrefixes parent c1 = availablePrefixes parent c2 := by
      unfold availablePrefixes
      rw [setUnion_perm hperm]
    have hp : (add_available_prefixes parent c1).Perm (add_available_prefixes parent c2) := by
      unfold add_available_prefixes
      refine (List.mergeSort_perm _ _).trans (.trans ?_ (List.mergeSort_perm _ _).symm)
      rw [hA]
      exact hperm.append_right _
    exact List.eq_of_perm_of_sorted hp hs1 (List.sorted_mergeSort netLeB_trans netLeB_total _)

/-- Witness for C9: a parent /30-sized block with its two /31 halves supplied in
both orders. -/
theorem C9_canonical_form_witness :
    List.Pairwise
        (fun a b => a.first < b.first ∨ (a.first = b.first ∧ a.prefixlen ≤ b.prefixlen))
        (add_available_prefixes ⟨4, 0, 30⟩ [⟨4, 0, 31⟩, ⟨4, 2, 31⟩]) ∧
    add_available_prefixes ⟨4, 0, 30⟩ [⟨4, 0, 31⟩, ⟨4, 2, 31⟩] =
      add_available_prefixes ⟨4, 0, 30⟩ [⟨4, 2, 31⟩, ⟨4, 0, 31⟩] ∧
    ∀ fuel base len, cidrDecompose ∅ (⟨4, 0, 30⟩ : Network).version fuel base len = [] :=
  C9_canonical_form ⟨4, 0, 30⟩ [⟨4, 0, 31⟩, ⟨4, 2, 31⟩] [⟨4, 2, 31⟩, ⟨4, 0, 31⟩]
    (by decide) (by decide)

/-!  ## C8: idempotence of both gap finders -/

/-- C8: re-running `add_available_prefixes` on its own output produces zero new
available networks, and re-running `add_available_ipaddresses` on the expansion
of its own output (treating the synthetic gaps as allocated records) yields an
output with zero gap entries. -/
theorem C8_idempotence (parent : Network) (children : List Network)
    (hv : parent.Valid) (hc : ∀ c ∈ children, netSet c ⊆ netSet parent)
    (pfx : Network) (l : List ℕ) (is_pool : Bool) :
    availablePrefixes parent (add_available_prefixes parent children) = [] ∧
    (add_available_ipaddresses pfx
        (expandItems (add_available_ipaddresses pfx l is_pool)) is_pool).filter
          IPItem.isGap = [] := by
  refine ⟨?_, addr_idempotent pfx l is_pool⟩
  have hcov : setUnion (add_available_prefixes parent children) = netSet parent := by
    have hperm : (add_available_prefixes parent children).Perm
        (children ++ availablePrefixes parent children) := List.mergeSort_perm _ _
    rw [setUnion_perm hperm, setUnion_append]
    obtain ⟨hu, -, -⟩ := availablePrefixes_spec parent children hv hc
    rw [hu, Finset.union_comm, Finset.sdiff_union_self_eq_union]
    exact Finset.union_eq_left.mpr (setUnion_subset hc)
  unfold availablePrefixes
  rw [hcov, Finset.sdiff_self, Finset.union_empty]
  exact cidrDecompose_empty parent.version _ _ _

/-- Witness for C8 at concrete inputs: the /30 parent with a /31 child, and the
/29 with one allocated address. -/
theorem C8_idempotence_witness :
    availablePrefixes ⟨4, 0, 30⟩ (add_available_prefixes ⟨4, 0, 30⟩ [⟨4, 0, 31⟩]) = [] ∧
    (add_available_ipaddresses ⟨4, 0, 29⟩
        (expandItems (add_available_ipaddresses ⟨4, 0, 29⟩ [2] false)) false).filter
          IPItem.isGap = [] :=
  C8_idempotence ⟨4, 0, 30⟩ [⟨4, 0, 31⟩] (by decide) (by decide) ⟨4, 0, 29⟩ [2] false

end Netbox
